import Mathlib

/-!
Verification of the `syncmap` Go repository (`sync_map.go`).

The Go code implements `SynchronisedMap[T, U]`, a mutex-guarded map with
Insert / Get / Contains / Remove / Len / GetKeys / String (Render) /
Bytes (Serialize) / Merge operations.  We shallowly embed the map table as an
association list `List (T × U)` whose key-uniqueness mirrors the Go `map`
invariant, and each operation as a pure function that returns the results and
the updated table (the mutex itself has no observable effect on sequential
semantics).  The `encoding/gob` codec used by `Bytes` and `Merge` lives in the
Go standard library, outside this repository, so `Merge` and `Bytes` are
parametrised by the decode/encode functions; a concrete executable
length-prefixed codec is provided to instantiate the theorems.
-/

namespace SyncMap

/-- The error kinds surfaced by the map operations: `missingKey` models
`ErrMissingKey`, `keyExists` models `ErrKeyExists`, and `decodeFailure` stands
for the (implementation-defined) error returned by a failed gob decode in
`Merge`. -/
inductive SMError where
  | missingKey
  | keyExists
  | decodeFailure
deriving DecidableEq, Repr

variable {T : Type} {U : Type}

/-- Embedding of the Go map read `s.m[k]`: first (unique, by the map
invariant) binding of key `k` in the table. -/
def mapLookup [DecidableEq T] : List (T × U) → T → Option U
  | [], _ => none
  | (k2, v) :: rest, k => if k2 = k then some v else mapLookup rest k

/-- Embedding of the Go map write `s.m[k] = v`: replace the binding of `k` if
present, otherwise add a fresh binding. -/
def setKey [DecidableEq T] : List (T × U) → T → U → List (T × U)
  | [], k, v => [(k, v)]
  | (k2, v2) :: rest, k, v =>
    if k2 = k then (k, v) :: rest else (k2, v2) :: setKey rest k v

/-- Embedding of the Go map delete `delete(s.m, k)`: drop every binding of
`k` (there is at most one under the map invariant). -/
def removeKey [DecidableEq T] (m : List (T × U)) (k : T) : List (T × U) :=
  m.filter (fun p => decide (p.1 ≠ k))

/-- The Go `map` invariant: keys are unique. -/
def nodupKeys (m : List (T × U)) : Prop := (m.map Prod.fst).Nodup

instance [DecidableEq T] (m : List (T × U)) : Decidable (nodupKeys m) := by
  unfold nodupKeys; infer_instance

/-- Model of `SortedKeys` (sync_map.go line 15): collect the keys of the map and sort
them ascending (`sort.Slice` with `<`; keys are unique, so any correct sort
yields the same list). -/
def SortedKeys [LinearOrder T] (m : List (T × U)) : List T :=
  List.insertionSort (· ≤ ·) (m.map Prod.fst)

/-- Model of `SynchronisedMap.Insert` (sync_map.go line 61).  Result is
((returned value, returned error), table after the call). -/
def Insert [DecidableEq T] [Inhabited U] (s : List (T × U)) (k : T) (v : U)
    (errIfExists : Bool) : (U × Option SMError) × List (T × U) :=
  match mapLookup s k with
  | none => ((default, none), setKey s k v)
  | some old =>
    if errIfExists then ((default, some .keyExists), s)
    else ((old, none), setKey s k v)

/-- Model of `SynchronisedMap.GetKeys` (sync_map.go line 81): the sorted keys.  The
table is not modified (the function is read-only, so no table is returned). -/
def GetKeys [LinearOrder T] (s : List (T × U)) : List T :=
  SortedKeys s

/-- Model of `SynchronisedMap.Contains` (sync_map.go line 89). -/
def Contains [DecidableEq T] (s : List (T × U)) (k : T) : Bool :=
  (mapLookup s k).isSome

/-- Model of `SynchronisedMap.Get` (sync_map.go line 99): stored value and no error if
present, zero value and `ErrMissingKey` otherwise.  Read-only. -/
def Get [DecidableEq T] [Inhabited U] (s : List (T × U)) (k : T) :
    U × Option SMError :=
  match mapLookup s k with
  | some t => (t, none)
  | none => (default, some .missingKey)

/-- Model of `SynchronisedMap.Remove` (sync_map.go line 112): delete the key; returns
only the updated table (the Go method has no return value). -/
def Remove [DecidableEq T] (s : List (T × U)) (k : T) : List (T × U) :=
  removeKey s k

/-- Model of `SynchronisedMap.Len` (sync_map.go line 120). -/
def Len (s : List (T × U)) : Nat := s.length

/-- One key/value pair of the `String` output: `fmt.Sprint(key)`, a colon,
`fmt.Sprint(m[key])` (sync_map.go lines 150-152).  `fmt.Sprint` of the value
via the Go map read, which yields the zero value for an absent key. -/
def renderEntry [DecidableEq T] [ToString T] [ToString U] [Inhabited U]
    (m : List (T × U)) (k : T) : String :=
  toString k ++ ":" ++ toString ((mapLookup m k).getD default)

/-- The single-space separator written between entries (sync_map.go line 154). -/
def sepSpace : String := " "

/-- The `String` formatting loop (sync_map.go lines 149-156): each entry
followed by a single space unless it is the last. -/
def renderEntries [DecidableEq T] [ToString T] [ToString U] [Inhabited U]
    (m : List (T × U)) : List T → String
  | [] => ""
  | [k] => renderEntry m k
  | k :: k2 :: rest => renderEntry m k ++ " " ++ renderEntries m (k2 :: rest)

/-- Model of `SynchronisedMap.String` (sync_map.go line 141), the spec's `Render`:
snapshot the table, sort the keys, and format `map[k1:v1 k2:v2 ...]`. -/
def Render [LinearOrder T] [ToString T] [ToString U] [Inhabited U]
    (s : List (T × U)) : String :=
  "map[" ++ renderEntries s (SortedKeys s) ++ "]"

/-- The `Merge` insertion loop (sync_map.go lines 191-195): for each decoded
pair, insert it only if the key is not already present. -/
def mergeTable [DecidableEq T] : List (T × U) → List (T × U) → List (T × U)
  | cur, [] => cur
  | cur, (k, v) :: rest =>
    mergeTable (if (mapLookup cur k).isSome then cur else setKey cur k v) rest

/-- Model of `SynchronisedMap.Merge` (sync_map.go line 177), parametrised by the gob
decode step `dec` (Go standard library, outside this repository): on decode
failure return the error with the table untouched, otherwise run the
additive-only insertion loop. -/
def Merge [DecidableEq T] (dec : List Nat → Option (List (T × U)))
    (s : List (T × U)) (b : List Nat) : List (T × U) × Option SMError :=
  match dec b with
  | none => (s, some .decodeFailure)
  | some m => (mergeTable s m, none)

/-- Model of `SynchronisedMap.Bytes` (sync_map.go line 163), parametrised by the gob
encode step `enc`: encode a snapshot of the table. -/
def Bytes (enc : List (T × U) → List Nat) (s : List (T × U)) : List Nat :=
  enc s

/-- Modelled from the spec: the wire format is a language-native binary
encoding of the table that round-trips within one runtime (spec section 6);
the gob implementation is Go standard library code outside this repository.
This concrete stand-in encodes an `Int` as a sign tag followed by the
magnitude. -/
def encodeInt (v : Int) : List Nat :=
  if v ≥ 0 then [0, v.toNat] else [1, (-v).toNat]

/-- Modelled from the spec: encoding of a `Nat`-keyed, `Int`-valued table as
a count-prefixed stream of key/value records. -/
def encodeTable (m : List (Nat × Int)) : List Nat :=
  m.length :: (m.map (fun p => p.1 :: encodeInt p.2)).flatten

/-- Decode one sign-tagged integer, returning the remaining stream. -/
def decodeInt : List Nat → Option (Int × List Nat)
  | 0 :: n :: rest => some ((n : Int), rest)
  | 1 :: n :: rest => some (-(n : Int), rest)
  | _ => none

/-- Decode one key/value record, returning the remaining stream. -/
def decodeEntry : List Nat → Option ((Nat × Int) × List Nat)
  | k :: rest => (decodeInt rest).map (fun p => ((k, p.1), p.2))
  | [] => none

/-- Decode exactly `n` key/value records, consuming the whole stream. -/
def decodeEntries : Nat → List Nat → Option (List (Nat × Int))
  | 0, [] => some []
  | 0, _ :: _ => none
  | n + 1, bs =>
    match decodeEntry bs with
    | none => none
    | some (e, rest) =>
      match decodeEntries n rest with
      | none => none
      | some es => some (e :: es)

/-- Modelled from the spec: the decode side of the stand-in codec; fails on
malformed input, as gob decode does. -/
def decodeTable : List Nat → Option (List (Nat × Int))
  | n :: rest => decodeEntries n rest
  | [] => none

/-! ### Lemmas about the table primitives -/

@[simp] theorem mapLookup_nil [DecidableEq T] (k : T) :
    mapLookup ([] : List (T × U)) k = none := rfl

theorem mapLookup_setKey_self [DecidableEq T] (m : List (T × U)) (k : T) (v : U) :
    mapLookup (setKey m k v) k = some v := by
  induction m with
  | nil => simp [setKey, mapLookup]
  | cons p rest ih =>
    obtain ⟨k2, v2⟩ := p
    by_cases h : k2 = k
    · simp [setKey, h, mapLookup]
    · simp [setKey, h, mapLookup, ih]

theorem mapLookup_setKey_ne [DecidableEq T] (m : List (T × U)) (k k2 : T) (v : U)
    (h : k2 ≠ k) : mapLookup (setKey m k v) k2 = mapLookup m k2 := by
  induction m with
  | nil => simp [setKey, mapLookup, Ne.symm h]
  | cons p rest ih =>
    obtain ⟨k3, v3⟩ := p
    by_cases h3 : k3 = k
    · subst h3
      simp [setKey, mapLookup, Ne.symm h]
    · simp only [setKey, if_neg h3, mapLookup]
      by_cases h4 : k3 = k2 <;> simp [h4, ih]

theorem mem_keys_iff_isSome [DecidableEq T] (m : List (T × U)) (k : T) :
    k ∈ m.map Prod.fst ↔ (mapLookup m k).isSome := by
  induction m with
  | nil => simp [mapLookup]
  | cons p rest ih =>
    obtain ⟨k2, v2⟩ := p
    by_cases h : k2 = k
    · simp [mapLookup, h]
    · simpa [mapLookup, h, Ne.symm h] using ih

theorem keys_setKey [DecidableEq T] (m : List (T × U)) (k : T) (v : U) :
    (setKey m k v).map Prod.fst =
      if k ∈ m.map Prod.fst then m.map Prod.fst else m.map Prod.fst ++ [k] := by
  induction m with
  | nil => simp [setKey]
  | cons p rest ih =>
    obtain ⟨k2, v2⟩ := p
    by_cases h : k2 = k
    · simp [setKey, h]
    · simp only [setKey, if_neg h, List.map_cons, ih]
      by_cases h2 : k ∈ rest.map Prod.fst <;>
        simp [h2, Ne.symm h]

theorem nodupKeys_setKey [DecidableEq T] (m : List (T × U)) (k : T) (v : U)
    (h : nodupKeys m) : nodupKeys (setKey m k v) := by
  unfold nodupKeys at h ⊢
  rw [keys_setKey]
  by_cases h2 : k ∈ m.map Prod.fst
  · simpa [h2] using h
  · simp only [if_neg h2]
    refine List.Nodup.append h (List.nodup_singleton k) ?_
    intro a ha hb
    rw [List.mem_singleton] at hb
    subst hb
    exact h2 ha

theorem mapLookup_removeKey_self [DecidableEq T] (m : List (T × U)) (k : T) :
    mapLookup (removeKey m k) k = none := by
  induction m with
  | nil => simp [removeKey, mapLookup]
  | cons p rest ih =>
    obtain ⟨k2, v2⟩ := p
    by_cases h : k2 = k
    · simpa [removeKey, List.filter_cons, h] using ih
    · simpa [removeKey, List.filter_cons, h, mapLookup] using ih

theorem mapLookup_removeKey_ne [DecidableEq T] (m : List (T × U)) (k k2 : T)
    (h : k2 ≠ k) : mapLookup (removeKey m k) k2 = mapLookup m k2 := by
  induction m with
  | nil => simp [removeKey]
  | cons p rest ih =>
    obtain ⟨k3, v3⟩ := p
    by_cases h3 : k3 = k
    · simpa [removeKey, List.filter_cons, h3, Ne.symm h, mapLookup] using ih
    · by_cases h4 : k3 = k2
      · simp [removeKey, List.filter_cons, h3, h4, h, mapLookup]
      · simpa [removeKey, List.filter_cons, h3, h4, mapLookup] using ih

theorem removeKey_of_absent [DecidableEq T] (m : List (T × U)) (k : T)
    (h : mapLookup m k = none) : removeKey m k = m := by
  induction m with
  | nil => rfl
  | cons p rest ih =>
    obtain ⟨k2, v2⟩ := p
    by_cases h2 : k2 = k
    · simp [mapLookup, h2] at h
    · simp only [mapLookup, if_neg h2] at h
      have hstep : removeKey ((k2, v2) :: rest) k = (k2, v2) :: removeKey rest k := by
        simp [removeKey, List.filter_cons, h2]
      rw [hstep, ih h]

/-! ### Lemmas about the merge loop -/

theorem mapLookup_mergeTable_some [DecidableEq T] (d : List (T × U)) :
    ∀ (cur : List (T × U)) (k : T) (v : U), mapLookup cur k = some v →
      mapLookup (mergeTable cur d) k = some v := by
  induction d with
  | nil => intro cur k v h; simpa [mergeTable] using h
  | cons p rest ih =>
    intro cur k v h
    obtain ⟨k2, v2⟩ := p
    simp only [mergeTable]
    by_cases h2 : (mapLookup cur k2).isSome = true
    · rw [if_pos h2]
      exact ih cur k v h
    · rw [if_neg h2]
      by_cases h3 : k2 = k
      · rw [h3, h] at h2
        simp at h2
      · exact ih _ k v (by rw [mapLookup_setKey_ne cur k2 k v2 (Ne.symm h3)]; exact h)

theorem mapLookup_mergeTable_none [DecidableEq T] (d : List (T × U)) :
    ∀ (cur : List (T × U)) (k : T), mapLookup cur k = none →
      mapLookup (mergeTable cur d) k = mapLookup d k := by
  induction d with
  | nil => intro cur k h; simpa [mergeTable, mapLookup] using h
  | cons p rest ih =>
    intro cur k h
    obtain ⟨k2, v2⟩ := p
    simp only [mergeTable]
    by_cases h3 : k2 = k
    · subst h3
      rw [if_neg (by simp [h])]
      rw [mapLookup_mergeTable_some rest _ k2 v2 (mapLookup_setKey_self cur k2 v2)]
      simp [mapLookup]
    · have hne : mapLookup (if (mapLookup cur k2).isSome = true then cur
          else setKey cur k2 v2) k = none := by
        split
        · exact h
        · rw [mapLookup_setKey_ne cur k2 k v2 (Ne.symm h3)]
          exact h
      rw [ih _ k hne]
      simp [mapLookup, h3]

theorem mergeTable_eq_self [DecidableEq T] (d : List (T × U)) :
    ∀ (cur : List (T × U)), (∀ p ∈ d, (mapLookup cur p.1).isSome) →
      mergeTable cur d = cur := by
  induction d with
  | nil => intro cur _; rfl
  | cons p rest ih =>
    intro cur h
    obtain ⟨k2, v2⟩ := p
    have hk : (mapLookup cur k2).isSome := h (k2, v2) (List.mem_cons_self _ _)
    simp only [mergeTable, hk, if_true]
    exact ih cur (fun q hq => h q (List.mem_cons_of_mem _ hq))

theorem nodupKeys_mergeTable [DecidableEq T] (d : List (T × U)) :
    ∀ (cur : List (T × U)), nodupKeys cur → nodupKeys (mergeTable cur d) := by
  induction d with
  | nil => intro cur h; exact h
  | cons p rest ih =>
    intro cur h
    obtain ⟨k2, v2⟩ := p
    simp only [mergeTable]
    split
    · exact ih cur h
    · exact ih _ (nodupKeys_setKey cur k2 v2 h)

/-! ### Lemmas about the sorted key sequence -/

theorem sortedKeys_perm [LinearOrder T] (m : List (T × U)) :
    (SortedKeys m).Perm (m.map Prod.fst) :=
  List.perm_insertionSort _ _

theorem sortedKeys_sorted [LinearOrder T] (m : List (T × U)) :
    List.Sorted (· ≤ ·) (SortedKeys m) :=
  List.sorted_insertionSort _ _

theorem sortedKeys_nodup [LinearOrder T] (m : List (T × U)) (h : nodupKeys m) :
    (SortedKeys m).Nodup :=
  ((sortedKeys_perm m).symm).nodup h

theorem sortedKeys_sorted_lt [LinearOrder T] (m : List (T × U))
    (h : nodupKeys m) : List.Sorted (· < ·) (SortedKeys m) := by
  have h1 : List.Pairwise (· ≤ ·) (SortedKeys m) := sortedKeys_sorted m
  have h2 : List.Pairwise (· ≠ ·) (SortedKeys m) := sortedKeys_nodup m h
  exact (h1.and h2).imp (fun hab => lt_of_le_of_ne hab.1 hab.2)

theorem mem_sortedKeys [LinearOrder T] (m : List (T × U)) (k : T) :
    k ∈ SortedKeys m ↔ (mapLookup m k).isSome := by
  rw [(sortedKeys_perm m).mem_iff]
  exact mem_keys_iff_isSome m k

theorem sortedKeys_eq_of_lookup_eq [LinearOrder T] (m1 m2 : List (T × U))
    (h1 : nodupKeys m1) (h2 : nodupKeys m2)
    (h : ∀ k, mapLookup m1 k = mapLookup m2 k) :
    SortedKeys m1 = SortedKeys m2 := by
  have hperm : (m1.map Prod.fst).Perm (m2.map Prod.fst) :=
    (List.perm_ext_iff_of_nodup h1 h2).mpr
      (fun a => by rw [mem_keys_iff_isSome, mem_keys_iff_isSome, h a])
  exact List.eq_of_perm_of_sorted
    ((sortedKeys_perm m1).trans (hperm.trans (sortedKeys_perm m2).symm))
    (sortedKeys_sorted m1) (sortedKeys_sorted m2)

/-! ### Lemmas about rendering -/

theorem intercalate_go_append (s acc1 acc2 : String) (as : List String) :
    String.intercalate.go (acc1 ++ acc2) s as =
      acc1 ++ String.intercalate.go acc2 s as := by
  induction as generalizing acc2 with
  | nil => rfl
  | cons a as ih =>
    simp only [String.intercalate.go]
    rw [String.append_assoc acc1 acc2 s, String.append_assoc acc1 (acc2 ++ s) a, ih]

theorem renderEntries_eq_intercalate [DecidableEq T] [ToString T] [ToString U]
    [Inhabited U] (m : List (T × U)) (ks : List T) :
    renderEntries m ks = String.intercalate sepSpace (ks.map (renderEntry m)) := by
  induction ks with
  | nil => rfl
  | cons k rest ih =>
    cases rest with
    | nil => rfl
    | cons k2 rest2 =>
      simp only [renderEntries] at ih ⊢
      rw [ih]
      simp only [List.map_cons, String.intercalate, String.intercalate.go]
      rw [intercalate_go_append]
      rfl

theorem renderEntry_congr [DecidableEq T] [ToString T] [ToString U] [Inhabited U]
    (m1 m2 : List (T × U)) (h : ∀ k, mapLookup m1 k = mapLookup m2 k) (k : T) :
    renderEntry m1 k = renderEntry m2 k := by
  simp [renderEntry, h k]

theorem renderEntries_congr [DecidableEq T] [ToString T] [ToString U] [Inhabited U]
    (m1 m2 : List (T × U)) (h : ∀ k, mapLookup m1 k = mapLookup m2 k)
    (ks : List T) : renderEntries m1 ks = renderEntries m2 ks := by
  induction ks with
  | nil => rfl
  | cons k rest ih =>
    cases rest with
    | nil => simp only [renderEntries, renderEntry_congr m1 m2 h]
    | cons k2 rest2 =>
      simp only [renderEntries] at ih ⊢
      rw [ih, renderEntry_congr m1 m2 h]

theorem render_congr [LinearOrder T] [ToString T] [ToString U] [Inhabited U]
    (m1 m2 : List (T × U)) (h1 : nodupKeys m1) (h2 : nodupKeys m2)
    (h : ∀ k, mapLookup m1 k = mapLookup m2 k) : Render m1 = Render m2 := by
  unfold Render
  rw [sortedKeys_eq_of_lookup_eq m1 m2 h1 h2 h, renderEntries_congr m1 m2 h]

/-! ### The claims -/

/-- C1: for every table `s`, decode function and byte sequence `b` that
decodes successfully to `m`, `Merge` reports no error, leaves every
already-present key bound to its old value (so it never removes a key and
never overwrites an existing value, discarding the decoded value for such
keys), and gives every key that was absent from `s` exactly the binding that
`m` gives it — so precisely the decoded pairs with absent keys are
inserted, with their decoded values. -/
theorem merge_additive_only [DecidableEq T]
    (dec : List Nat → Option (List (T × U))) (s : List (T × U)) (b : List Nat)
    (m : List (T × U)) (hdec : dec b = some m) :
    (Merge dec s b).2 = none ∧
    (∀ k v, mapLookup s k = some v → mapLookup (Merge dec s b).1 k = some v) ∧
    (∀ k, mapLookup s k = none →
      mapLookup (Merge dec s b).1 k = mapLookup m k) := by
  unfold Merge
  rw [hdec]
  exact ⟨rfl, fun k v h => mapLookup_mergeTable_some m s k v h,
    fun k h => mapLookup_mergeTable_none m s k h⟩

theorem merge_additive_only_witness :
    (Merge decodeTable [(1, (5 : Int))] (encodeTable [(1, 7), (2, -3)])).2 =
      none ∧
    mapLookup (Merge decodeTable [(1, (5 : Int))]
      (encodeTable [(1, 7), (2, -3)])).1 1 = some 5 ∧
    mapLookup (Merge decodeTable [(1, (5 : Int))]
      (encodeTable [(1, 7), (2, -3)])).1 2 = some (-3) := by
  have h := merge_additive_only decodeTable [(1, (5 : Int))]
    (encodeTable [(1, 7), (2, -3)]) [(1, 7), (2, -3)] (by decide)
  refine ⟨h.1, h.2.1 1 5 (by decide), ?_⟩
  rw [h.2.2 2 (by decide)]
  decide

/-- C2: `Insert` on an absent key stores the value and returns the zero value
with no error whatever the flag is; on a present key with `errIfExists` it
returns the zero value with the key-exists error and leaves the table
literally unchanged; on a present key without the flag it overwrites and
returns the prior value with no error.  In the two mutating cases every other
key keeps its binding. -/
theorem insert_spec [DecidableEq T] [Inhabited U] (s : List (T × U)) (k : T)
    (v : U) (errIfExists : Bool) :
    (mapLookup s k = none →
      (Insert s k v errIfExists).1 = (default, none) ∧
      mapLookup (Insert s k v errIfExists).2 k = some v ∧
      ∀ k2, k2 ≠ k →
        mapLookup (Insert s k v errIfExists).2 k2 = mapLookup s k2) ∧
    (∀ old, mapLookup s k = some old → errIfExists = true →
      Insert s k v errIfExists = ((default, some SMError.keyExists), s)) ∧
    (∀ old, mapLookup s k = some old → errIfExists = false →
      (Insert s k v errIfExists).1 = (old, none) ∧
      mapLookup (Insert s k v errIfExists).2 k = some v ∧
      ∀ k2, k2 ≠ k →
        mapLookup (Insert s k v errIfExists).2 k2 = mapLookup s k2) := by
  refine ⟨fun h => ?_, fun old h hf => ?_, fun old h hf => ?_⟩
  · unfold Insert
    rw [h]
    exact ⟨rfl, mapLookup_setKey_self s k v,
      fun k2 hk2 => mapLookup_setKey_ne s k k2 v hk2⟩
  · unfold Insert
    rw [h, hf]
    rfl
  · unfold Insert
    rw [h, hf]
    exact ⟨rfl, mapLookup_setKey_self s k v,
      fun k2 hk2 => mapLookup_setKey_ne s k k2 v hk2⟩

theorem insert_spec_witness :
    ((Insert [(1, (10 : Int))] 2 5 true).1 = (0, none) ∧
      mapLookup (Insert [(1, (10 : Int))] 2 5 true).2 2 = some 5) ∧
    Insert [(1, (10 : Int))] 1 5 true =
      ((0, some SMError.keyExists), [(1, 10)]) ∧
    ((Insert [(1, (10 : Int))] 1 5 false).1 = (10, none) ∧
      mapLookup (Insert [(1, (10 : Int))] 1 5 false).2 1 = some 5 ∧
      mapLookup (Insert [(1, (10 : Int))] 1 5 false).2 2 =
        mapLookup [(1, (10 : Int))] 2) := by
  have h1 := (insert_spec [(1, (10 : Int))] 2 5 true).1 (by decide)
  have h2 := (insert_spec [(1, (10 : Int))] 1 5 true).2.1 10 (by decide) rfl
  have h3 := (insert_spec [(1, (10 : Int))] 1 5 false).2.2 10 (by decide) rfl
  exact ⟨⟨h1.1, h1.2.1⟩, h2, h3.1, h3.2.1, h3.2.2 2 (by decide)⟩

/-- C3: round-trip.  If decoding the serialized bytes of `m1` succeeds and
yields a table `d` with the same bindings (which is what the gob codec
guarantees for a supported value type within one runtime), then merging those
bytes into an empty map succeeds and produces a table with exactly the
bindings of `m1`, and the two maps render identically. -/
theorem serialize_merge_roundTrip [LinearOrder T] [ToString T] [ToString U]
    [Inhabited U] (enc : List (T × U) → List Nat)
    (dec : List Nat → Option (List (T × U))) (m1 d : List (T × U))
    (h1 : nodupKeys m1)
    (hdec : dec (Bytes enc m1) = some d)
    (hsame : ∀ k, mapLookup d k = mapLookup m1 k) :
    (Merge dec [] (Bytes enc m1)).2 = none ∧
    (∀ k, mapLookup (Merge dec [] (Bytes enc m1)).1 k = mapLookup m1 k) ∧
    Render (Merge dec [] (Bytes enc m1)).1 = Render m1 := by
  have hmerge : Merge dec [] (Bytes enc m1) = (mergeTable [] d, none) := by
    unfold Merge
    rw [hdec]
  have hlook : ∀ k, mapLookup (mergeTable ([] : List (T × U)) d) k =
      mapLookup m1 k := by
    intro k
    rw [mapLookup_mergeTable_none d [] k rfl]
    exact hsame k
  refine ⟨by rw [hmerge], fun k => by rw [hmerge]; exact hlook k, ?_⟩
  rw [hmerge]
  exact render_congr _ m1 (nodupKeys_mergeTable d [] (by simp [nodupKeys])) h1
    hlook

theorem serialize_merge_roundTrip_witness :
    (Merge decodeTable [] (Bytes encodeTable [(1, (5 : Int)), (2, -3)])).2 =
      none ∧
    Render (Merge decodeTable []
        (Bytes encodeTable [(1, (5 : Int)), (2, -3)])).1 =
      Render [(1, (5 : Int)), (2, -3)] := by
  have h := serialize_merge_roundTrip encodeTable decodeTable
    [(1, (5 : Int)), (2, -3)] [(1, (5 : Int)), (2, -3)]
    (by decide) (by decide) (fun k => rfl)
  exact ⟨h.1, h.2.2⟩

/-- C4: when decoding fails, `Merge` returns the decode error and the table is
returned exactly as it was — no binding is inserted, removed or modified. -/
theorem merge_failure_unchanged [DecidableEq T]
    (dec : List Nat → Option (List (T × U))) (s : List (T × U)) (b : List Nat)
    (h : dec b = none) : Merge dec s b = (s, some SMError.decodeFailure) := by
  unfold Merge
  rw [h]

theorem merge_failure_unchanged_witness :
    Merge decodeTable [(1, (5 : Int))] [1] =
      ([(1, (5 : Int))], some SMError.decodeFailure) :=
  merge_failure_unchanged decodeTable [(1, (5 : Int))] [1] (by decide)

/-- C5: `Get` returns the stored value with no error exactly when the key is
present, and the zero value with the missing-key error when it is absent; the
missing-key error is returned iff the key is absent.  `Get` takes the table
only as input, so it cannot change it. -/
theorem get_spec [DecidableEq T] [Inhabited U] (s : List (T × U)) (k : T) :
    (∀ v, mapLookup s k = some v → Get s k = (v, none)) ∧
    (mapLookup s k = none → Get s k = (default, some SMError.missingKey)) ∧
    ((Get s k).2 = some SMError.missingKey ↔ mapLookup s k = none) := by
  rcases hx : mapLookup s k with _ | v0
  · refine ⟨?_, ?_, ?_⟩
    · intro v hv
      exact Option.noConfusion hv
    · intro _
      simp [Get, hx]
    · simp [Get, hx]
  · refine ⟨?_, ?_, ?_⟩
    · intro v hv
      cases hv
      simp [Get, hx]
    · intro hv
      exact Option.noConfusion hv
    · simp [Get, hx]

theorem get_spec_witness :
    Get [(1, (7 : Int))] 1 = (7, none) ∧
    Get [(1, (7 : Int))] 2 = (0, some SMError.missingKey) :=
  ⟨(get_spec [(1, (7 : Int))] 1).1 7 (by decide),
    (get_spec [(1, (7 : Int))] 2).2.1 (by decide)⟩

/-- C6: `Render` produces exactly the text of the space-separated
`key:value` entries (each rendered by the default text conversion of its
type, with the stored value), keys in ascending order, wrapped in
`map[` ... `]`; the sorted key sequence lists exactly the table's keys in
strictly ascending order, and the output is determined by the table's
contents (any table with the same bindings renders identically). -/
theorem render_spec [LinearOrder T] [ToString T] [ToString U] [Inhabited U]
    (m : List (T × U)) (h : nodupKeys m) :
    Render m = "map[" ++ String.intercalate sepSpace
        ((SortedKeys m).map
          (fun k => toString k ++ ":" ++
            toString ((mapLookup m k).getD default))) ++ "]" ∧
    (SortedKeys m).Perm (m.map Prod.fst) ∧
    List.Sorted (· < ·) (SortedKeys m) ∧
    (∀ m2, nodupKeys m2 → (∀ k, mapLookup m2 k = mapLookup m k) →
      Render m2 = Render m) := by
  refine ⟨?_, sortedKeys_perm m, sortedKeys_sorted_lt m h,
    fun m2 h2 hk => render_congr m2 m h2 h hk⟩
  unfold Render
  rw [renderEntries_eq_intercalate]
  rfl

theorem render_spec_witness :
    Render [(2, (-3 : Int)), (1, 5)] = "map[" ++ String.intercalate sepSpace
        ((SortedKeys [(2, (-3 : Int)), (1, 5)]).map
          (fun k => toString k ++ ":" ++
            toString ((mapLookup [(2, (-3 : Int)), (1, 5)] k).getD
              default))) ++ "]" ∧
    List.Sorted (· < ·) (SortedKeys [(2, (-3 : Int)), (1, 5)]) := by
  have h := render_spec [(2, (-3 : Int)), (1, 5)] (by decide)
  exact ⟨h.1, h.2.2.1⟩

/-- C7: `GetKeys` returns a sequence containing exactly the keys present in
the table, each exactly once, in strictly ascending order; it takes the table
only as input, so the table is unchanged. -/
theorem getKeys_spec [LinearOrder T] (m : List (T × U)) (h : nodupKeys m) :
    (∀ k, k ∈ GetKeys m ↔ (mapLookup m k).isSome) ∧
    (GetKeys m).Nodup ∧
    List.Sorted (· < ·) (GetKeys m) :=
  ⟨fun k => mem_sortedKeys m k, sortedKeys_nodup m h, sortedKeys_sorted_lt m h⟩

theorem getKeys_spec_witness :
    (1 ∈ GetKeys [(3, (1 : Int)), (2, 2), (1, 3)] ↔
      (mapLookup [(3, (1 : Int)), (2, 2), (1, 3)] 1).isSome) ∧
    List.Sorted (· < ·) (GetKeys [(3, (1 : Int)), (2, 2), (1, 3)]) := by
  have h := getKeys_spec [(3, (1 : Int)), (2, 2), (1, 3)] (by decide)
  exact ⟨h.1 1, h.2.2⟩

/-- C8: `Remove` deletes the key's binding if present, leaves every other
key's binding unchanged, and is a literal no-op when the key is absent; it
returns only the table (the Go method has no return value, so it cannot
signal an error). -/
theorem remove_spec [DecidableEq T] (s : List (T × U)) (k : T) :
    mapLookup (Remove s k) k = none ∧
    (∀ k2, k2 ≠ k → mapLookup (Remove s k) k2 = mapLookup s k2) ∧
    (mapLookup s k = none → Remove s k = s) :=
  ⟨mapLookup_removeKey_self s k,
    fun k2 h => mapLookup_removeKey_ne s k k2 h,
    fun h => removeKey_of_absent s k h⟩

theorem remove_spec_witness :
    mapLookup (Remove [(1, (5 : Int)), (2, 6)] 1) 1 = none ∧
    mapLookup (Remove [(1, (5 : Int)), (2, 6)] 1) 2 =
      mapLookup [(1, (5 : Int)), (2, 6)] 2 ∧
    Remove [(1, (5 : Int)), (2, 6)] 3 = [(1, (5 : Int)), (2, 6)] :=
  ⟨(remove_spec [(1, (5 : Int)), (2, 6)] 1).1,
    (remove_spec [(1, (5 : Int)), (2, 6)] 1).2.1 2 (by decide),
    (remove_spec [(1, (5 : Int)), (2, 6)] 3).2.2 (by decide)⟩

/-- C10: `Merge` is idempotent — when the bytes decode successfully, applying
`Merge` a second time to the result of the first returns exactly the same
table and error as the first application, because every decoded key is
already present after the first merge. -/
theorem merge_idempotent [DecidableEq T]
    (dec : List Nat → Option (List (T × U))) (s : List (T × U)) (b : List Nat)
    (m : List (T × U)) (h : dec b = some m) :
    Merge dec (Merge dec s b).1 b = Merge dec s b := by
  have h1 : Merge dec s b = (mergeTable s m, none) := by
    unfold Merge
    rw [h]
  rw [h1]
  show Merge dec (mergeTable s m) b = _
  unfold Merge
  rw [h]
  have h2 : mergeTable (mergeTable s m) m = mergeTable s m := by
    apply mergeTable_eq_self
    intro p hp
    rcases hx : mapLookup s p.1 with _ | v
    · rw [mapLookup_mergeTable_none m s p.1 hx, ← mem_keys_iff_isSome]
      exact List.mem_map_of_mem Prod.fst hp
    · rw [mapLookup_mergeTable_some m s p.1 v hx]
      rfl
  show (mergeTable (mergeTable s m) m, (none : Option SMError)) =
    (mergeTable s m, none)
  rw [h2]

theorem merge_idempotent_witness :
    Merge decodeTable
        (Merge decodeTable [(1, (5 : Int))] (encodeTable [(2, 4)])).1
        (encodeTable [(2, 4)]) =
      Merge decodeTable [(1, (5 : Int))] (encodeTable [(2, 4)]) :=
  merge_idempotent decodeTable [(1, (5 : Int))] (encodeTable [(2, 4)])
    [(2, 4)] (by decide)

end SyncMap
